import Mathlib

/-!
# Verification of `iso8601duration` (duration.go)

Shallow embedding of the Go package `duration` (file `duration.go`) and
proofs about its parser (`ParseString`), accessors, formatter
(`Duration.String` via the text template `tmpl`), and JSON round-trip
(`MarshalJSON` / `UnmarshalJSON`).

Modelling conventions:
* `time.Duration` is an `int64` count of nanoseconds; it is modelled as
  `Int`, with two's-complement wrap-around (`i64`) applied at every
  arithmetic step the Go code performs on `time.Duration` values.
* Go `float64` values that the code computes (`Years()` … `Seconds()`,
  `strconv.ParseFloat` results, `math.Trunc`, `math.Mod`) are modelled
  with exact rational arithmetic (`ℚ`).  For every value the theorems
  below evaluate at, all the `float64` operations the Go code performs
  are exact, so the rational model coincides with the code; the theorems
  with hypotheses restrict their domains accordingly (whole minutes /
  small magnitudes) so that no inexact `float64` step is in scope.
  The conversion `time.Duration(v)` of a `float64` truncates toward
  zero (`ratTrunc`); Go leaves the out-of-int64-range case
  implementation-defined, and it is modelled as plain truncation.
* The two regular expressions
  `full = P((?P<year>\d+)Y)?((?P<month>\d+)M)?((?P<day>\d+)D)?(T((?P<hour>\d+)H)?((?P<minute>\d+)M)?((?P<second>[\d\.]+)S)?)?`
  `week = P((?P<week>\d+)W)`
  are UNANCHORED and Go's regexp package uses leftmost-first (Perl
  preference) semantics.  Because every group of `full` after the
  literal `P` is optional, `full` matches exactly the strings containing
  a `P`, at the first `P`; `week` matches at the first `P` that is
  followed by a digit run whose following character is `W`.  Greedy
  `\d+`/`[\d.]+` runs followed by a fixed letter admit no backtracking
  (the letter is not in the character class), so the matcher below is a
  direct deterministic transcription of the leftmost-first search.
* `strconv.ParseFloat` on text captured by `\d+` or `[\d\.]+` is
  modelled exactly on rationals, including its out-of-range `ErrRange`
  failure at values of `2^1024 - 2^970` and above (which round to
  `+Inf`); the rounding of in-range values to the nearest float64 is
  not modelled, so theorems quantify only over domains where that
  rounding is exact or cannot affect the stated property.
* `json.Encoder.Encode` of a string writes the quoted, escaped string
  followed by a newline (HTML escaping on, i.e. `<`, `>`, `&` are
  escaped); `json.Decoder.Decode` into a `string` fails unless the first
  JSON value is a string.  `\uXXXX` escapes are not modelled (the
  encoder never emits them for the formatter's output alphabet).
-/

namespace ISO8601

/- The Batteries rational primitives are `@[irreducible]`; concrete
evaluation of the model (for the closed theorems below) needs them to
unfold. -/
attribute [local semireducible] Rat.add Rat.mul Rat.inv Rat.sub Rat.ofScientific

/-! ## Unit constants (nanoseconds), from the `const` block of duration.go -/

def nsSecond : Int := 1000000000
def nsMinute : Int := 60000000000
def nsHour : Int := 3600000000000
/-- Go `Day = time.Hour * 24` -/
def nsDay : Int := 86400000000000
/-- Go `Week = Day * 7` -/
def nsWeek : Int := 604800000000000
/-- Go `Month = Day * 30` -/
def nsMonth : Int := 2592000000000000
/-- Go `Year = Day * 365` -/
def nsYear : Int := 31536000000000000

/-- Two's-complement wrap-around of Go `int64`/`time.Duration` arithmetic. -/
def i64 (z : Int) : Int :=
  (z + 9223372036854775808) % 18446744073709551616 - 9223372036854775808

/-- Go `math.Trunc`: round a float toward zero (exact-rational model). -/
def ratTrunc (q : ℚ) : Int := if 0 ≤ q then ⌊q⌋ else ⌈q⌉

/-- Go `type Duration struct { time.Duration }` — the wrapped int64 nanosecond
magnitude. -/
structure Duration where
  v : Int
deriving DecidableEq

/-! ## Accessors (duration.go lines 49–88), integer cores.

Go computes each accessor by first doing `time.Duration` (int64) division
— which truncates toward zero — and only then converting the small
quotients to `float64` (exactly representable), so the integer cores
below are exact transcriptions; `math.Mod` keeps the sign of the
dividend, which is `Int.tmod`. -/

/-- Go `Years()`: `math.Floor(float64(d.Duration / Year))`; the argument is an
integer-valued float, so the floor is the identity. -/
def Duration.YearsI (d : Duration) : Int := Int.tdiv d.v nsYear

/-- Go `Days()`: `math.Mod(float64(d.Duration / Day), float64(Year / Day))`. -/
def Duration.DaysI (d : Duration) : Int := Int.tmod (Int.tdiv d.v nsDay) 365

/-- Go `Hours()`: `math.Mod(float64(d.Duration / time.Hour), 24)`. -/
def Duration.HoursI (d : Duration) : Int := Int.tmod (Int.tdiv d.v nsHour) 24

/-- Go `Minutes()`: `math.Mod(float64(d.Duration / time.Minute), 60)`. -/
def Duration.MinutesI (d : Duration) : Int := Int.tmod (Int.tdiv d.v nsMinute) 60

def Duration.Years (d : Duration) : ℚ := (d.YearsI : ℚ)
def Duration.Days (d : Duration) : ℚ := (d.DaysI : ℚ)
def Duration.Hours (d : Duration) : ℚ := (d.HoursI : ℚ)
def Duration.Minutes (d : Duration) : ℚ := (d.MinutesI : ℚ)

/-- Go `Weeks()`: `x := d.Days(); y := 7; if math.Mod(x, y) > 0 { return 0 };
return x / y`.  The quotient is a float division, possibly fractional
when `Days()` is negative. -/
def Duration.Weeks (d : Duration) : ℚ :=
  if Int.tmod d.DaysI 7 > 0 then 0 else (d.DaysI : ℚ) / 7

/-- Go `time.Duration.Minutes()` (the promoted standard-library method):
`float64(min) + float64(nsec)/(60*1e9)`, which is `d / 6e10` as a real
number; the model is this real value.  CAVEAT: the real float64 sum can
round UP across a whole-minute boundary once `min ≥ 2^18` (i.e.
`|d| ≥ 2^18·6e10 ≈ 1.57e16 > 2^53`), e.g. at d = 31457339999999997 ns
Go computes 524288 + 0.99999999995 → 524289.0, one more than the true
truncated minute count.  For `|d| < 2^53` the carry cannot happen
(`min < 2^18`, so half an ulp of `min` is below `1 - nsec/6e10`), and
`math.Trunc` of the float agrees exactly with `ratTrunc` of this model.
Theorems about `Seconds()` restrict to that domain. -/
def Duration.minutesFloat (d : Duration) : ℚ := (d.v : ℚ) / (nsMinute : ℚ)

/-- Go `Seconds()`: `(float64(d.Nanoseconds()) - math.Trunc(d.Duration.Minutes())
* float64(time.Minute)) / float64(time.Second)`, in exact rationals.
CAVEAT: the model coincides with the float64 computation (up to the
final division, which only rounds and cannot change the sign) exactly
when `|d| < 2^53`: there `float64(d)` is exact, `Trunc(Minutes())`
equals the true minute count (see `minutesFloat`), the product and
subtraction are exact, and the value is `(d mod 6e10)/1e9` as this
model computes.  Beyond `2^53` the real code can diverge — e.g. at
d = 31457339999999997 ns Go returns -4e-09 (`float64(d)` rounds down
while `Minutes()` carries up) while this model returns the exact
+59.999999997 — so no theorem about `Seconds()` quantifies past 2^53
except where the value is exactly 0 (whole minutes, where
`float64(d) = float64(min·6e10)` makes the subtraction cancel
exactly at every magnitude). -/
def Duration.Seconds (d : Duration) : ℚ :=
  ((d.v : ℚ) - (ratTrunc d.minutesFloat : ℚ) * (nsMinute : ℚ)) / (nsSecond : ℚ)

/-- Go `IsZero()`: `d.Duration == 0`. -/
def Duration.IsZero (d : Duration) : Bool := d.v == 0

/-- Go `IsWeeksOnly()`: `time.Duration(time.Duration(d.Weeks())*Week) ==
d.Duration` (float→int64 truncation, then int64 multiplication). -/
def Duration.IsWeeksOnly (d : Duration) : Bool :=
  i64 (ratTrunc d.Weeks * nsWeek) == d.v

/-- Go `HasTimePart()`: `d.Hours() != 0.0 || d.Minutes() != 0.0 ||
d.Seconds() != 0.0`. -/
def Duration.HasTimePart (d : Duration) : Bool :=
  decide (d.Hours ≠ 0) || decide (d.Minutes ≠ 0) || decide (d.Seconds ≠ 0)

/-! ## Decimal digit rendering (`fmt` `%v` of integers / floats) -/

/-- The character of a decimal digit. -/
def digitChar : Nat → Char
  | 0 => '0' | 1 => '1' | 2 => '2' | 3 => '3' | 4 => '4'
  | 5 => '5' | 6 => '6' | 7 => '7' | 8 => '8' | _ => '9'

/-- Most-significant-first decimal digits of a natural number
(fuel-indexed so that it is structural and kernel-reducible). -/
def natDigitsAux : Nat → Nat → List Char
  | 0, _ => []
  | fuel + 1, n =>
    if n < 10 then [digitChar n]
    else natDigitsAux fuel (n / 10) ++ [digitChar (n % 10)]

def natDigits (n : Nat) : List Char := natDigitsAux (n + 1) n

/-- Value of a most-significant-first digit run (used both to state what
the renderer produced and what `strconv` reads back). -/
def digitsVal (l : List Char) : Nat :=
  l.foldl (fun a c => a * 10 + (c.toNat - 48)) 0

/-! ## `%v` formatting of the `float64` accessor values.

`text/template` prints a `float64` with `fmt` `%v`, i.e.
`strconv.FormatFloat(f, 'g', -1, 64)`: shortest round-tripping digits,
fixed notation for decimal exponents in `[-4, 21)`, scientific notation
(`d.ddde-0X`, exponent at least two digits) otherwise.  Every value the
template prints is either an integer-valued float or a seconds value
`k/10^9` with `0 < k < 6*10^10` (at most 11 significant digits, so its
shortest float64 representation is its own decimal digit string).  The
renderer below implements exactly that; rationals outside this shape
(never produced by the template, see `weeks_printed_integer` reasoning in
the round-trip proof) fall to a dummy `'?'`. -/

/-- Strip trailing `'0'` characters. -/
def stripZeros (l : List Char) : List Char :=
  (l.reverse.dropWhile (fun c => c = '0')).reverse

/-- Left-pad with `'0'` to 9 characters (the fractional part of a
seconds value has exactly 9 decimal places before stripping). -/
def pad9 (l : List Char) : List Char :=
  List.replicate (9 - l.length) '0' ++ l

/-- Split `n = b * 10^t` with `b` not divisible by 10 (fuel-indexed). -/
def strip10 : Nat → Nat → Nat × Nat
  | 0, n => (n, 0)
  | fuel + 1, n =>
    if n % 10 = 0 ∧ n ≠ 0 then
      let p := strip10 fuel (n / 10)
      (p.1, p.2 + 1)
    else (n, 0)

/-- Scientific notation for a seconds value `n/10^9` with
`0 < n < 10^5` (value `< 10^-4`): mantissa digits of `n` with the
decimal point after the first digit, exponent in `[-9, -5]`, printed
with the two-digit exponent field Go uses (`e-05` … `e-09`). -/
def eMant (n : Nat) : List Char :=
  let p := strip10 9 n
  let ds := natDigits p.1
  let mant :=
    match ds with
    | [] => []
    | c :: rest => if rest = [] then [c] else c :: '.' :: rest
  mant ++ 'e' :: '-' :: '0' :: natDigits (10 - p.2 - ds.length)

/-- Go's `%v` for the scaled numerator `n = q * 10^9` of a non-negative
seconds-like value: integer rendering when `n` is a whole multiple of
`10^9`, scientific notation below `10^-4`, fixed notation otherwise. -/
def fmtNat9 (n : Nat) : List Char :=
  if n % 1000000000 = 0 then natDigits (n / 1000000000)
  else if n < 100000 then eMant n
  else natDigits (n / 1000000000) ++ '.' :: stripZeros (pad9 (natDigits (n % 1000000000)))

/-- Go's `%v` of a non-negative float value (exact-rational model). -/
def fmtQNN (q : ℚ) : List Char :=
  if (q * 1000000000).den = 1 ∧ 0 ≤ (q * 1000000000).num then
    fmtNat9 (q * 1000000000).num.toNat
  else ['?']

/-- Go's `%v` of a float value (exact-rational model). -/
def fmtQ (q : ℚ) : List Char :=
  if q < 0 then '-' :: fmtQNN (-q) else fmtQNN q

/-! ## The formatter: `Duration.String` via the template `tmpl`
(duration.go line 37):
`P{{if .IsZero}}0D{{else}}{{if and .Weeks .IsWeeksOnly}}{{.Weeks}}W{{else}}{{if .Years}}{{.Years}}Y{{end}}{{if .Days}}{{.Days}}D{{end}}{{if .HasTimePart}}T{{if .Hours}}{{.Hours}}H{{end}}{{if .Minutes}}{{.Minutes}}M{{end}}{{if .Seconds}}{{.Seconds}}S{{end}}{{end}}{{end}}{{end}}`
Template truthiness of a float is "non-zero"; of a bool, itself. -/

def durStringL (d : Duration) : List Char :=
  'P' ::
    (if d.IsZero then ['0', 'D']
     else if d.Weeks ≠ 0 ∧ d.IsWeeksOnly then fmtQ d.Weeks ++ ['W']
     else
       (if d.Years ≠ 0 then fmtQ d.Years ++ ['Y'] else []) ++
       (if d.Days ≠ 0 then fmtQ d.Days ++ ['D'] else []) ++
       (if d.HasTimePart then
          'T' ::
            ((if d.Hours ≠ 0 then fmtQ d.Hours ++ ['H'] else []) ++
             (if d.Minutes ≠ 0 then fmtQ d.Minutes ++ ['M'] else []) ++
             (if d.Seconds ≠ 0 then fmtQ d.Seconds ++ ['S'] else []))
        else []))

/-- Go `Duration.String()` (the method named `String` in Go). -/
def durString (d : Duration) : String := ⟨durStringL d⟩

/-- One optional `<n>X` designator chunk of the formatter's output, as
the round-trip proof decomposes it (the template emits the chunk iff the
accessor value is non-zero). -/
def numPart (n : Int) (c : Char) : List Char :=
  if n = 0 then [] else natDigits n.toNat ++ [c]

/-- The formatter's output in the general (non-zero, non-weeks) branch,
for a whole-minute magnitude (no seconds chunk). -/
def fullFormL (y dd h m : Int) : List Char :=
  'P' :: (numPart y 'Y' ++ numPart dd 'D' ++
    (if h ≠ 0 ∨ m ≠ 0 then 'T' :: (numPart h 'H' ++ numPart m 'M') else []))

/-- The capture a `full` group yields on the formatter's output: absent
iff the emitted value was zero. -/
def capOf (n : Int) : Option (List Char) :=
  if n = 0 then none else some (natDigits n.toNat)

/-! ## The parser: `ParseString` (duration.go lines 91–148) -/

/-- The errors `ParseString` can return: `ErrBadFormat` when neither
regexp matches, or a `strconv.ParseFloat` error on a numeric capture
(`numErr` covers both the syntax error on a malformed capture such as
`1.2.3` and the `ErrRange` error on an out-of-float64-range capture —
Go distinguishes them, but both are non-nil and both are returned
as-is, and no claim separates them).  (The `default:` "unknown field"
branch of the switch is unreachable for the fixed grammar and has no
constructor here.) -/
inductive GoErr where
  | badFormat
  | numErr
deriving DecidableEq

/-- Attempt of the `week` pattern at a position just after a `P`:
`(?P<week>\d+)W` — a greedy digit run whose following character must be
`W` (no backtracking can help, since a shorter run is followed by a
digit, not `W`). -/
def weekTryAt (cs : List Char) : Option (List Char) :=
  if cs.takeWhile Char.isDigit ≠ [] ∧ (cs.dropWhile Char.isDigit).head? = some 'W' then
    some (cs.takeWhile Char.isDigit)
  else none

/-- Leftmost match of the unanchored `week` regexp: the first `P`
followed by `\d+W`; returns the captured `week` digits.
`week.MatchString` is `(weekScanL l).isSome`. -/
def weekScanL : List Char → Option (List Char)
  | [] => none
  | c :: rest =>
    if c = 'P' then
      match weekTryAt rest with
      | some r => some r
      | none => weekScanL rest
    else weekScanL rest

/-- The capture groups of the `full` regexp, in `SubexpNames` order. -/
structure FullCaps where
  year : Option (List Char)
  month : Option (List Char)
  day : Option (List Char)
  hour : Option (List Char)
  minute : Option (List Char)
  second : Option (List Char)
deriving DecidableEq

/-- One optional group `((?P<name>\d+)X)?` of `full`: a greedy digit run
whose next character must be the designator letter; on failure the
optional group matches empty and consumes nothing. -/
def tryGroup (cs : List Char) (c : Char) : Option (List Char) × List Char :=
  if cs.takeWhile Char.isDigit ≠ [] ∧ (cs.dropWhile Char.isDigit).head? = some c then
    (some (cs.takeWhile Char.isDigit), (cs.dropWhile Char.isDigit).tail)
  else (none, cs)

/-- The seconds group `((?P<second>[\d\.]+)S)?`: the run may contain
digits and dots. -/
def trySecGroup (cs : List Char) : Option (List Char) :=
  if cs.takeWhile (fun c => c.isDigit || c = '.') ≠ [] ∧
      (cs.dropWhile (fun c => c.isDigit || c = '.')).head? = some 'S' then
    some (cs.takeWhile (fun c => c.isDigit || c = '.'))
  else none

/-- The `full` pattern applied just after a `P`: optional year, month,
day groups, then an optional `T(…H)?(…M)?(…S)?` time section (which
matches whenever a `T` is present, possibly with no inner group). -/
def fullAt (cs : List Char) : FullCaps :=
  match tryGroup cs 'Y' with
  | (yc, cs1) =>
    match tryGroup cs1 'M' with
    | (moc, cs2) =>
      match tryGroup cs2 'D' with
      | (dc, cs3) =>
        match cs3 with
        | c :: cs4 =>
          if c = 'T' then
            match tryGroup cs4 'H' with
            | (hc, cs5) =>
              match tryGroup cs5 'M' with
              | (mic, cs6) => ⟨yc, moc, dc, hc, mic, trySecGroup cs6⟩
          else ⟨yc, moc, dc, none, none, none⟩
        | [] => ⟨yc, moc, dc, none, none, none⟩

/-- Leftmost match of the unanchored `full` regexp: everything after the
literal `P` is optional, so it matches at the first `P` of the input
(and `full.MatchString` is exactly "the input contains a `P`"). -/
def fullScanL : List Char → Option FullCaps
  | [] => none
  | c :: rest => if c = 'P' then some (fullAt rest) else fullScanL rest

/-- The overflow threshold of Go `strconv.ParseFloat`: a (non-negative)
decimal whose value is at least `2^1024 - 2^970` rounds to `+Inf` under
round-to-nearest-even (the tie at the threshold goes to the even
`2^1024`), and `ParseFloat` then returns the value with an `ErrRange`
error, which `ParseString` propagates.  The literal is exactly
`2^1024 - 2^970` (see `parseFloatLimit_eq`). -/
def parseFloatLimit : Nat := 179769313486231580793728971405303415079934132710037826936173778980444968292764750946649017977587207096330286416692887910946555547851940402630657488671505820681908902000708383676273854845817711531764475730270069855571366959622842914819860834936475292719074168444365510704342711559699508093042880177904174497792

/-- The range check of Go `strconv.ParseFloat` on a non-negative value:
below the overflow threshold the (exact-rational model of the) value,
at or above it the `ErrRange` failure.  The captures `\d+` / `[\d\.]+`
can only produce non-negative values, so the `-Inf` side cannot occur. -/
def floatRangeCheck (q : ℚ) : Option ℚ :=
  if q < (parseFloatLimit : ℚ) then some q else none

/-- Go `strconv.ParseFloat` restricted to the texts the captures can
produce (digits for `\d+`, digits and dots for `[\d\.]+`): at most one
dot and at least one digit overall, and the value below the float64
overflow threshold (`ErrRange` otherwise).  Exact-rational model of the
value. -/
def parseGoFloat (l : List Char) : Option ℚ :=
  let intPart := l.takeWhile Char.isDigit
  let rest := l.drop intPart.length
  match rest with
  | [] => if intPart ≠ [] then floatRangeCheck (digitsVal intPart : ℚ) else none
  | '.' :: frac =>
    if frac.all Char.isDigit ∧ (intPart ≠ [] ∨ frac ≠ []) then
      floatRangeCheck
        ((digitsVal intPart : ℚ) + (digitsVal frac : ℚ) / ((10 : ℚ) ^ frac.length))
    else none
  | _ => none

/-- One accumulation step `d += time.Duration(val) * Unit`: float→int64
truncation, then int64 multiplication and addition (each wrapping). -/
def durAdd (acc : Int) (val : ℚ) (unit : Int) : Int :=
  i64 (acc + i64 (i64 (ratTrunc val) * unit))

/-- The loop body for one named integer capture (year/month/day/hour/
minute): skip when the group did not participate; otherwise
`ParseFloat` then accumulate. -/
def addField (acc : Except GoErr Int) (cap : Option (List Char)) (unit : Int) :
    Except GoErr Int :=
  match acc, cap with
  | .error e, _ => .error e
  | .ok a, none => .ok a
  | .ok a, some run =>
    match parseGoFloat run with
    | none => .error .numErr
    | some v => .ok (durAdd a v unit)

/-- The `case "second"` branch: whole seconds, then the fractional part
decomposed into milli-, micro- and nanoseconds by repeated
`val = (val - math.Trunc(val)) * 1000` extraction. -/
def secCascade (a : Int) (v : ℚ) : Int :=
  let a1 := durAdd a v nsSecond
  let v1 := (v - (ratTrunc v : ℚ)) * 1000
  let a2 := durAdd a1 v1 1000000
  let v2 := (v1 - (ratTrunc v1 : ℚ)) * 1000
  let a3 := durAdd a2 v2 1000
  let v3 := (v2 - (ratTrunc v2 : ℚ)) * 1000
  durAdd a3 v3 1

/-- The loop body for the `second` capture. -/
def addSecField (acc : Except GoErr Int) (cap : Option (List Char)) :
    Except GoErr Int :=
  match acc, cap with
  | .error e, _ => .error e
  | .ok a, none => .ok a
  | .ok a, some run =>
    match parseGoFloat run with
    | none => .error .numErr
    | some v => .ok (secCascade a v)

/-- The extraction loop over the `full` captures, in `SubexpNames`
order: year, month, day, hour, minute, second. -/
def parseFull (caps : FullCaps) : Except GoErr Int :=
  addSecField
    (addField
      (addField
        (addField
          (addField
            (addField (.ok 0) caps.year nsYear)
            caps.month nsMonth)
          caps.day nsDay)
        caps.hour nsHour)
      caps.minute nsMinute)
    caps.second

/-- Go `ParseString`: try the `week` pattern first; on a week match use the
week count exclusively; otherwise try `full`; if neither matches return
`ErrBadFormat`. -/
def parseStringL (l : List Char) : Except GoErr Duration :=
  match weekScanL l with
  | some run =>
    match parseGoFloat run with
    | none => .error .numErr
    | some v => .ok ⟨durAdd 0 v nsWeek⟩
  | none =>
    match fullScanL l with
    | none => .error GoErr.badFormat
    | some caps => (parseFull caps).map Duration.mk

def parseString (s : String) : Except GoErr Duration := parseStringL s.data

/-! ## JSON (`MarshalJSON` / `UnmarshalJSON`, duration.go lines 186–208) -/

def hexDigit (n : Nat) : Char :=
  if n < 10 then digitChar n
  else if n = 10 then 'a' else if n = 11 then 'b' else if n = 12 then 'c'
  else if n = 13 then 'd' else if n = 14 then 'e' else 'f'

/-- The escaping `encoding/json` applies inside a string (HTML escaping
on, the `Encoder` default). -/
def jsonEscapeChar (c : Char) : List Char :=
  if c = '"' then ['\\', '"']
  else if c = '\\' then ['\\', '\\']
  else if c = '<' then ['\\', 'u', '0', '0', '3', 'c']
  else if c = '>' then ['\\', 'u', '0', '0', '3', 'e']
  else if c = '&' then ['\\', 'u', '0', '0', '2', '6']
  else if c = '\n' then ['\\', 'n']
  else if c = '\r' then ['\\', 'r']
  else if c = '\t' then ['\\', 't']
  else if c.toNat < 32 then
    ['\\', 'u', '0', '0', hexDigit (c.toNat / 16), hexDigit (c.toNat % 16)]
  else [c]

def jsonEncodeString (l : List Char) : List Char :=
  '"' :: (l.foldr (fun c acc => jsonEscapeChar c ++ acc) []) ++ ['"']

/-- Go `MarshalJSON`: `enc.Encode(d.String())` — the quoted escaped string
plus the newline `json.Encoder.Encode` appends. -/
def marshalJSONL (d : Duration) : List Char := jsonEncodeString (durStringL d) ++ ['\n']

def marshalJSON (d : Duration) : String := ⟨marshalJSONL d⟩

def isJSONWs (c : Char) : Bool := c = ' ' || c = '\t' || c = '\n' || c = '\r'

/-- A single-character JSON escape (`\uXXXX` escapes are unmodelled and
rejected; the encoder never emits them for the formatter's alphabet). -/
def unescapeChar (c : Char) : Option Char :=
  if c = '"' then some '"'
  else if c = '\\' then some '\\'
  else if c = '/' then some '/'
  else if c = 'n' then some '\n'
  else if c = 't' then some '\t'
  else if c = 'r' then some '\r'
  else if c = 'b' then some (Char.ofNat 8)
  else if c = 'f' then some (Char.ofNat 12)
  else none

/-- Scan the body of a JSON string up to the closing quote; the flag
records a pending backslash. -/
def scanJSONStr : Bool → List Char → Option (List Char × List Char)
  | _, [] => none
  | true, c :: rest =>
    match unescapeChar c with
    | some ch => (scanJSONStr false rest).map (fun p => (ch :: p.1, p.2))
    | none => none
  | false, c :: rest =>
    if c = '"' then some ([], rest)
    else if c = '\\' then scanJSONStr true rest
    else (scanJSONStr false rest).map (fun p => (c :: p.1, p.2))

/-- Go `json.Decoder.Decode(&s)` for `s : string`: skip whitespace, require
the first JSON value to be a string, unescape it; anything else is a
decode error.  Trailing data after the value is not an error (the
decoder reads a stream). -/
def jsonDecodeStringL (l : List Char) : Option (List Char) :=
  match l.dropWhile isJSONWs with
  | '"' :: rest => (scanJSONStr false rest).map (fun p => p.1)
  | _ => none

/-- The error cases of `UnmarshalJSON`: a decoder error, or a
`ParseString` error. -/
inductive UErr where
  | decodeErr
  | parseErr (e : GoErr)
deriving DecidableEq

/-- Go `UnmarshalJSON` as a state transformer on the receiver: the Go
method assigns `*d = *t` only after both the decode and the parse
succeed, so on error the receiver is returned unchanged. -/
def unmarshalJSON (d : Duration) (data : String) : Option UErr × Duration :=
  match jsonDecodeStringL data.data with
  | none => (some .decodeErr, d)
  | some s =>
    match parseStringL s with
    | .error e => (some (.parseErr e), d)
    | .ok t => (none, t)

end ISO8601

deriving instance DecidableEq for Except

namespace ISO8601

/- Re-enable concrete evaluation of the rational primitives for the
proof part of the file (the attribute is scoped to the namespace
block). -/
attribute [local semireducible] Rat.add Rat.mul Rat.inv Rat.sub Rat.ofScientific

/-! ## Helper lemmas: decimal digits -/

theorem digitChar_isDigit (k : Nat) : (digitChar k).isDigit = true := by
  rcases k with _ | _ | _ | _ | _ | _ | _ | _ | _ | _ <;> rfl

theorem digitChar_toNat (k : Nat) (hk : k < 10) : (digitChar k).toNat - 48 = k := by
  interval_cases k <;> rfl

theorem digitChar_ne (k : Nat) (c : Char) (hc : c.isDigit = false) : digitChar k ≠ c := by
  intro h
  rw [← h, digitChar_isDigit] at hc
  cases hc

theorem digitsVal_append_singleton (l : List Char) (c : Char) :
    digitsVal (l ++ [c]) = digitsVal l * 10 + (c.toNat - 48) := by
  simp [digitsVal, List.foldl_append]

theorem natDigitsAux_spec (fuel : Nat) :
    ∀ n : Nat, n < fuel →
      (∀ c ∈ natDigitsAux fuel n, c.isDigit = true) ∧
      natDigitsAux fuel n ≠ [] ∧
      digitsVal (natDigitsAux fuel n) = n := by
  induction fuel with
  | zero => intro n h; exact absurd h (Nat.not_lt_zero _)
  | succ fuel ih =>
    intro n hn
    by_cases h10 : n < 10
    · refine ⟨?_, ?_, ?_⟩
      · intro c hc
        simp only [natDigitsAux, if_pos h10, List.mem_singleton] at hc
        rw [hc]; exact digitChar_isDigit n
      · simp [natDigitsAux, if_pos h10]
      · simp only [natDigitsAux, if_pos h10]
        show digitsVal ([] ++ [digitChar n]) = n
        rw [digitsVal_append_singleton, digitChar_toNat n h10]
        simp [digitsVal]
    · have hdiv : n / 10 < fuel := by omega
      obtain ⟨hd, hne, hval⟩ := ih (n / 10) hdiv
      refine ⟨?_, ?_, ?_⟩
      · intro c hc
        simp only [natDigitsAux, if_neg h10, List.mem_append, List.mem_singleton] at hc
        rcases hc with hc | hc
        · exact hd c hc
        · rw [hc]; exact digitChar_isDigit _
      · simp only [natDigitsAux, if_neg h10]
        intro h
        exact hne (List.append_eq_nil.mp h).1
      · simp only [natDigitsAux, if_neg h10]
        rw [digitsVal_append_singleton, hval, digitChar_toNat _ (Nat.mod_lt _ (by omega))]
        omega

theorem natDigits_isDigit (n : Nat) : ∀ c ∈ natDigits n, c.isDigit = true :=
  (natDigitsAux_spec (n + 1) n (Nat.lt_succ_self n)).1

theorem natDigits_ne_nil (n : Nat) : natDigits n ≠ [] :=
  (natDigitsAux_spec (n + 1) n (Nat.lt_succ_self n)).2.1

theorem digitsVal_natDigits (n : Nat) : digitsVal (natDigits n) = n :=
  (natDigitsAux_spec (n + 1) n (Nat.lt_succ_self n)).2.2

/-! ## Helper lemmas: takeWhile / dropWhile over shaped lists -/

theorem takeWhile_append_all {p : Char → Bool} (l r : List Char)
    (h : ∀ c ∈ l, p c = true) :
    (l ++ r).takeWhile p = l ++ r.takeWhile p := by
  induction l with
  | nil => rfl
  | cons c t ih =>
    have hc : p c = true := h c (List.mem_cons_self c t)
    simp only [List.cons_append, List.takeWhile_cons, hc, if_true]
    rw [ih (fun x hx => h x (List.mem_cons_of_mem c hx))]

theorem dropWhile_append_all {p : Char → Bool} (l r : List Char)
    (h : ∀ c ∈ l, p c = true) :
    (l ++ r).dropWhile p = r.dropWhile p := by
  induction l with
  | nil => rfl
  | cons c t ih =>
    have hc : p c = true := h c (List.mem_cons_self c t)
    simp only [List.cons_append, List.dropWhile_cons, hc, if_true]
    exact ih (fun x hx => h x (List.mem_cons_of_mem c hx))

theorem takeWhile_cons_neg {p : Char → Bool} (c : Char) (t : List Char)
    (h : p c = false) : (c :: t).takeWhile p = [] := by
  simp [List.takeWhile_cons, h]

theorem dropWhile_cons_neg {p : Char → Bool} (c : Char) (t : List Char)
    (h : p c = false) : (c :: t).dropWhile p = c :: t := by
  simp [List.dropWhile_cons, h]

/-! ## Helper lemmas: the week scanner -/

theorem weekTryAt_mem_W (cs : List Char) (r : List Char)
    (h : weekTryAt cs = some r) : 'W' ∈ cs := by
  unfold weekTryAt at h
  split at h
  · next hcond =>
    have hd := hcond.2
    have : 'W' ∈ cs.dropWhile Char.isDigit := by
      cases hdw : cs.dropWhile Char.isDigit with
      | nil => rw [hdw] at hd; cases hd
      | cons a t =>
        rw [hdw] at hd
        simp only [List.head?_cons, Option.some.injEq] at hd
        rw [hd] at *
        exact List.mem_cons_self _ _
    exact (List.dropWhile_sublist _).mem this
  · cases h

theorem weekScanL_mem_W (l : List Char) (r : List Char)
    (h : weekScanL l = some r) : 'W' ∈ l := by
  induction l with
  | nil => cases h
  | cons c t ih =>
    unfold weekScanL at h
    split at h
    · next hc =>
      subst hc
      cases htry : weekTryAt t with
      | some r' =>
        exact List.mem_cons_of_mem _ (weekTryAt_mem_W t r' htry)
      | none =>
        rw [htry] at h
        exact List.mem_cons_of_mem _ (ih h)
    · exact List.mem_cons_of_mem _ (ih h)

theorem weekScanL_none_of_no_W (l : List Char) (h : 'W' ∉ l) :
    weekScanL l = none := by
  cases hscan : weekScanL l with
  | none => rfl
  | some r => exact absurd (weekScanL_mem_W l r hscan) h

/-- The week pattern hit: at a `P` followed by a non-empty digit run and
then `W`, the scanner captures the digit run. -/
theorem weekScanL_hit (ds rest : List Char) (hne : ds ≠ [])
    (hds : ∀ c ∈ ds, c.isDigit = true) :
    weekScanL ('P' :: ds ++ 'W' :: rest) = some ds := by
  show weekScanL ('P' :: (ds ++ 'W' :: rest)) = some ds
  unfold weekScanL
  rw [if_pos rfl]
  have htake : (ds ++ 'W' :: rest).takeWhile Char.isDigit = ds := by
    rw [takeWhile_append_all ds _ hds, takeWhile_cons_neg 'W' rest (by decide)]
    simp
  have hdrop : (ds ++ 'W' :: rest).dropWhile Char.isDigit = 'W' :: rest := by
    rw [dropWhile_append_all ds _ hds, dropWhile_cons_neg 'W' rest (by decide)]
  have : weekTryAt (ds ++ 'W' :: rest) = some ds := by
    unfold weekTryAt
    rw [htake, hdrop]
    rw [if_pos ⟨hne, rfl⟩]
  rw [this]

/-- The captured digits of a week match are a non-empty digit run. -/
theorem weekScanL_digits (l : List Char) (r : List Char)
    (h : weekScanL l = some r) : r ≠ [] ∧ ∀ c ∈ r, c.isDigit = true := by
  induction l with
  | nil => cases h
  | cons c t ih =>
    unfold weekScanL at h
    split at h
    · cases htry : weekTryAt t with
      | some r' =>
        rw [htry] at h
        cases h
        unfold weekTryAt at htry
        split at htry
        · next hcond =>
          cases htry
          exact ⟨hcond.1, fun c hc => List.mem_takeWhile_imp hc⟩
        · cases htry
      | none =>
        rw [htry] at h
        exact ih h
    · exact ih h

/-! ## Helper lemmas: the full-pattern groups -/

theorem tryGroup_nil (c : Char) : tryGroup [] c = (none, []) := rfl

theorem tryGroup_head_not_digit (c₀ : Char) (t : List Char) (c : Char)
    (h : c₀.isDigit = false) : tryGroup (c₀ :: t) c = (none, c₀ :: t) := by
  unfold tryGroup
  rw [takeWhile_cons_neg c₀ t h]
  simp

/-- A greedy digit run followed by the wanted designator letter. -/
theorem tryGroup_hit (ds : List Char) (c : Char) (rest : List Char)
    (hne : ds ≠ []) (hds : ∀ x ∈ ds, x.isDigit = true) (hc : c.isDigit = false) :
    tryGroup (ds ++ c :: rest) c = (some ds, rest) := by
  unfold tryGroup
  rw [takeWhile_append_all ds _ hds, takeWhile_cons_neg c rest hc,
    dropWhile_append_all ds _ hds, dropWhile_cons_neg c rest hc]
  rw [if_pos ⟨by simpa using hne, rfl⟩]
  simp

/-- A greedy digit run followed by a different (non-digit) letter: the
optional group matches empty and consumes nothing. -/
theorem tryGroup_miss (ds : List Char) (c' : Char) (rest : List Char) (c : Char)
    (hds : ∀ x ∈ ds, x.isDigit = true) (hc' : c'.isDigit = false)
    (hne : c' ≠ c) :
    tryGroup (ds ++ c' :: rest) c = (none, ds ++ c' :: rest) := by
  unfold tryGroup
  rw [takeWhile_append_all ds _ hds, takeWhile_cons_neg c' rest hc',
    dropWhile_append_all ds _ hds, dropWhile_cons_neg c' rest hc']
  rw [if_neg]
  intro hcond
  exact hne (by simpa using hcond.2)

/-! ## Helper lemmas: arithmetic bridges -/

theorem i64_of_range (z : Int) (h₁ : -9223372036854775808 ≤ z)
    (h₂ : z < 9223372036854775808) : i64 z = z := by
  unfold i64
  omega

theorem i64_range (z : Int) :
    -9223372036854775808 ≤ i64 z ∧ i64 z < 9223372036854775808 := by
  unfold i64
  constructor <;> omega

theorem ratTrunc_intCast (k : Int) : ratTrunc (k : ℚ) = k := by
  unfold ratTrunc
  split
  · exact Int.floor_intCast k
  · exact Int.ceil_intCast k

theorem ratTrunc_natCast (n : Nat) : ratTrunc (n : ℚ) = n := by
  rw [show ((n : ℚ)) = ((n : Int) : ℚ) by push_cast; ring, ratTrunc_intCast]

/-- Unfolding `durAdd` on an integer-valued float, entirely inside int64 range. -/
theorem durAdd_int (a k unit : Int)
    (hkn : -9223372036854775808 ≤ k * unit ∧ k * unit < 9223372036854775808)
    (hk : -9223372036854775808 ≤ k ∧ k < 9223372036854775808)
    (hsum : -9223372036854775808 ≤ a + k * unit ∧
      a + k * unit < 9223372036854775808) :
    durAdd a (k : ℚ) unit = a + k * unit := by
  unfold durAdd
  rw [ratTrunc_intCast, i64_of_range k hk.1 hk.2, i64_of_range _ hkn.1 hkn.2,
    i64_of_range _ hsum.1 hsum.2]

theorem parseFloatLimit_eq : parseFloatLimit = 2 ^ 1024 - 2 ^ 970 := by
  norm_num [parseFloatLimit]

theorem int64_lt_parseFloatLimit : (9223372036854775808 : ℕ) ≤ parseFloatLimit := by
  norm_num [parseFloatLimit]

theorem parseGoFloat_all_digits (l : List Char) (hne : l ≠ [])
    (hdig : ∀ c ∈ l, c.isDigit = true) (hrange : digitsVal l < parseFloatLimit) :
    parseGoFloat l = some ((digitsVal l : ℕ) : ℚ) := by
  unfold parseGoFloat
  have htake : l.takeWhile Char.isDigit = l := by
    have := takeWhile_append_all (p := Char.isDigit) l [] hdig
    simpa using this
  rw [htake]
  simp only [List.drop_length]
  rw [if_pos hne]
  unfold floatRangeCheck
  rw [if_pos (by exact_mod_cast hrange)]

theorem parseGoFloat_natDigits (n : Nat) (hrange : n < parseFloatLimit) :
    parseGoFloat (natDigits n) = some (n : ℚ) := by
  rw [parseGoFloat_all_digits (natDigits n) (natDigits_ne_nil n) (natDigits_isDigit n)
    (by rw [digitsVal_natDigits]; exact hrange), digitsVal_natDigits]

/-! ## Helper lemmas: the accessors on non-negative whole-minute values -/

theorem tdiv_eq_ediv_nn (a b : Int) (ha : 0 ≤ a) (hb : 0 ≤ b) :
    Int.tdiv a b = a / b :=
  Int.tdiv_eq_ediv ha hb

theorem tmod_eq_emod_nn (a b : Int) (ha : 0 ≤ a) (hb : 0 ≤ b) :
    Int.tmod a b = a % b :=
  Int.tmod_eq_emod ha hb

/-- The float `math.Trunc` of `(v : ℚ) / n` for `0 ≤ v` is integer
(euclidean) division. -/
theorem ratTrunc_div_natCast (v : Int) (n : Nat) (h : 0 ≤ v) :
    ratTrunc ((v : ℚ) / (n : ℚ)) = v / (n : Int) := by
  unfold ratTrunc
  rw [if_pos (by positivity), Rat.floor_intCast_div_natCast]

/-- Go `Seconds()` as the sub-minute remainder over 10^9 (exact model). -/
theorem Seconds_eq_emod (v : Int) (h : 0 ≤ v) :
    Duration.Seconds ⟨v⟩ = ((v % 60000000000 : Int) : ℚ) / (1000000000 : ℚ) := by
  unfold Duration.Seconds Duration.minutesFloat
  have hmin : ((nsMinute : Int) : ℚ) = ((60000000000 : Nat) : ℚ) := by
    norm_num [nsMinute]
  have hsec : ((nsSecond : Int) : ℚ) = (1000000000 : ℚ) := by norm_num [nsSecond]
  rw [hmin, hsec, ratTrunc_div_natCast v 60000000000 h]
  congr 1
  have hre : 60000000000 * (v / 60000000000) + v % 60000000000 = v :=
    Int.ediv_add_emod v 60000000000
  have hcast : ((60000000000 : ℚ)) * ((v / 60000000000 : Int) : ℚ) +
      ((v % 60000000000 : Int) : ℚ) = (v : ℚ) := by
    exact_mod_cast congrArg (fun z : Int => (z : ℚ)) hre
  push_cast at hcast ⊢
  linarith

/-- For a magnitude that is a whole number of minutes, `Seconds()` is
exactly zero (all the float operations involved are exact). -/
theorem Seconds_eq_zero_of_whole_minutes (v : Int) (h0 : 0 ≤ v)
    (h : v % 60000000000 = 0) : Duration.Seconds ⟨v⟩ = 0 := by
  rw [Seconds_eq_emod v h0, h]
  norm_num

/-! ## Helper lemmas: the formatter on integer-valued floats -/

theorem fmtQ_natCast (n : Nat) : fmtQ ((n : ℚ)) = natDigits n := by
  unfold fmtQ
  rw [if_neg (not_lt.mpr (by positivity))]
  unfold fmtQNN
  have h9 : ((n : ℚ) * 1000000000) = ((n * 1000000000 : ℕ) : ℚ) := by
    push_cast
    ring
  rw [h9, Rat.den_natCast, Rat.num_natCast]
  rw [if_pos ⟨rfl, by positivity⟩]
  have htn : ((n * 1000000000 : ℕ) : Int).toNat = n * 1000000000 := rfl
  rw [htn]
  unfold fmtNat9
  rw [if_pos (Nat.mul_mod_left n 1000000000),
    Nat.mul_div_cancel n (by norm_num : (0:ℕ) < 1000000000)]

theorem fmtQ_intCast_nonneg (k : Int) (h : 0 ≤ k) :
    fmtQ ((k : ℚ)) = natDigits k.toNat := by
  have hc : ((k.toNat : ℕ) : ℚ) = ((k : ℚ)) := by
    exact_mod_cast congrArg (fun z : Int => (z : ℚ)) (Int.toNat_of_nonneg h)
  rw [← hc, fmtQ_natCast]

/-! ## The round trip on the formatter's full-form output -/

theorem numPart_chars (n : Int) (c : Char) :
    ∀ x ∈ numPart n c, x.isDigit = true ∨ x = c := by
  intro x hx
  unfold numPart at hx
  split at hx
  · cases hx
  · rcases List.mem_append.mp hx with hx | hx
    · exact Or.inl (natDigits_isDigit _ x hx)
    · exact Or.inr (List.mem_singleton.mp hx)

theorem not_W_numPart (n : Int) (c : Char) (hne : 'W' ≠ c) :
    'W' ∉ numPart n c := by
  intro hmem
  rcases numPart_chars n c 'W' hmem with hd | he
  · exact absurd hd (by decide)
  · exact hne he

theorem no_W_fullForm (y dd h m : Int) : 'W' ∉ fullFormL y dd h m := by
  intro hW
  unfold fullFormL at hW
  rcases List.mem_cons.mp hW with hP | hW
  · cases hP
  · rcases List.mem_append.mp hW with hW | hW
    · rcases List.mem_append.mp hW with hW | hW
      · exact not_W_numPart y 'Y' (by decide) hW
      · exact not_W_numPart dd 'D' (by decide) hW
    · split at hW
      · rcases List.mem_cons.mp hW with hT | hW
        · cases hT
        · rcases List.mem_append.mp hW with hW | hW
          · exact not_W_numPart h 'H' (by decide) hW
          · exact not_W_numPart m 'M' (by decide) hW
      · cases hW

theorem tryGroup_numPart_hit (n : Int) (c : Char) (rest : List Char)
    (hn : n ≠ 0) (hc : c.isDigit = false) :
    tryGroup (numPart n c ++ rest) c = (some (natDigits n.toNat), rest) := by
  unfold numPart
  rw [if_neg hn, List.append_assoc, List.singleton_append]
  exact tryGroup_hit _ c rest (natDigits_ne_nil _) (natDigits_isDigit _) hc

theorem tryGroup_numPart_miss (n : Int) (c' : Char) (rest : List Char) (c : Char)
    (hc' : c'.isDigit = false) (hne : c' ≠ c) (hn : n ≠ 0) :
    tryGroup (numPart n c' ++ rest) c = (none, numPart n c' ++ rest) := by
  unfold numPart
  rw [if_neg hn, List.append_assoc, List.singleton_append]
  rw [tryGroup_miss _ c' rest c (natDigits_isDigit _) hc' hne]

/-- The date-side groups on a tail that is either empty or starts with
`T`: year then month then day, as the leftmost-first search walks them. -/
theorem fullAt_fullForm (y dd h m : Int) :
    fullAt (numPart y 'Y' ++ numPart dd 'D' ++
      (if h ≠ 0 ∨ m ≠ 0 then 'T' :: (numPart h 'H' ++ numPart m 'M') else [])) =
    ⟨capOf y, none, capOf dd, capOf h, capOf m, none⟩ := by
  -- the time tail in both cases
  set tp : List Char :=
    (if h ≠ 0 ∨ m ≠ 0 then 'T' :: (numPart h 'H' ++ numPart m 'M') else [])
    with htp
  -- the three groups the minute/second letters can never anticipate
  have hTorNil : tp = [] ∨ ∃ t', tp = 'T' :: t' := by
    rw [htp]
    split
    · exact Or.inr ⟨_, rfl⟩
    · exact Or.inl rfl
  have hmiss_tp : ∀ c : Char, c.isDigit = false → tryGroup tp c = (none, tp) := by
    intro c hc
    rcases hTorNil with h0 | ⟨t', h0⟩ <;> rw [h0]
    · exact tryGroup_nil c
    · exact tryGroup_head_not_digit 'T' t' c (by decide)
  -- step: the day-or-time chunk never matches `Y` or `M`
  have hmiss_dtp : ∀ c : Char, c.isDigit = false → c ≠ 'D' →
      tryGroup (numPart dd 'D' ++ tp) c = (none, numPart dd 'D' ++ tp) := by
    intro c hc hcD
    by_cases hd0 : dd = 0
    · simp only [numPart, if_pos hd0, List.nil_append]
      exact hmiss_tp c hc
    · exact tryGroup_numPart_miss dd 'D' tp c (by decide) (fun hDC => hcD hDC.symm) hd0
  unfold fullAt
  -- year group
  have hgy : tryGroup (numPart y 'Y' ++ numPart dd 'D' ++ tp) 'Y' =
      (capOf y, numPart dd 'D' ++ tp) := by
    rw [List.append_assoc]
    by_cases hy0 : y = 0
    · rw [show numPart y 'Y' = [] from by simp [numPart, hy0], List.nil_append]
      rw [capOf, if_pos hy0]
      exact hmiss_dtp 'Y' (by decide) (by decide)
    · rw [capOf, if_neg hy0]
      exact tryGroup_numPart_hit y 'Y' _ hy0 (by decide)
  rw [hgy]
  dsimp only
  -- month group: never present in the formatter's output
  have hgmo : tryGroup (numPart dd 'D' ++ tp) 'M' = (none, numPart dd 'D' ++ tp) :=
    hmiss_dtp 'M' (by decide) (by decide)
  rw [hgmo]
  dsimp only
  -- day group
  have hgd : tryGroup (numPart dd 'D' ++ tp) 'D' = (capOf dd, tp) := by
    by_cases hd0 : dd = 0
    · rw [show numPart dd 'D' = [] from by simp [numPart, hd0], List.nil_append]
      rw [capOf, if_pos hd0]
      exact hmiss_tp 'D' (by decide)
    · rw [capOf, if_neg hd0]
      exact tryGroup_numPart_hit dd 'D' tp hd0 (by decide)
  rw [hgd]
  dsimp only
  -- the time section
  by_cases htime : h ≠ 0 ∨ m ≠ 0
  · rw [htp, if_pos htime]
    -- hour group
    have hgh : tryGroup (numPart h 'H' ++ numPart m 'M') 'H' =
        (capOf h, numPart m 'M') := by
      by_cases hh0 : h = 0
      · rw [show numPart h 'H' = [] from by simp [numPart, hh0], List.nil_append]
        rw [capOf, if_pos hh0]
        by_cases hm0 : m = 0
        · rw [show numPart m 'M' = [] from by simp [numPart, hm0]]
          exact tryGroup_nil 'H'
        · have := tryGroup_numPart_miss m 'M' [] 'H' (by decide) (by decide) hm0
          simpa using this
      · rw [capOf, if_neg hh0]
        exact tryGroup_numPart_hit h 'H' _ hh0 (by decide)
    -- minute group
    have hgm : tryGroup (numPart m 'M') 'M' = (capOf m, []) := by
      by_cases hm0 : m = 0
      · rw [show numPart m 'M' = [] from by simp [numPart, hm0]]
        rw [capOf, if_pos hm0]
        exact tryGroup_nil 'M'
      · rw [capOf, if_neg hm0]
        have := tryGroup_numPart_hit m 'M' [] hm0 (by decide)
        simpa using this
    dsimp only
    rw [if_pos rfl, hgh]
    dsimp only
    rw [hgm]
    rfl
  · rw [htp, if_neg htime]
    push_neg at htime
    simp only [capOf, if_pos htime.1, if_pos htime.2]

/-- One extraction-loop step on a formatter capture, with all the int64
steps in range. -/
theorem addField_capOf (a n unit : Int) (ha : 0 ≤ a) (hn : 0 ≤ n)
    (hu : 0 < unit) (hbound : a + n * unit < 9223372036854775808) :
    addField (.ok a) (capOf n) unit = .ok (a + n * unit) := by
  have hnu : 0 ≤ n * unit := mul_nonneg hn (le_of_lt hu)
  have hle : n ≤ n * unit := by nlinarith
  have hrange : n.toNat < parseFloatLimit := by
    have h63 : n < 9223372036854775808 := by omega
    have hT := int64_lt_parseFloatLimit
    omega
  by_cases hn0 : n = 0
  · subst hn0
    simp [capOf, addField]
  · unfold capOf
    rw [if_neg hn0]
    unfold addField
    dsimp only
    rw [parseGoFloat_natDigits n.toNat hrange]
    dsimp only
    have hcast : ((n.toNat : ℕ) : ℚ) = ((n : Int) : ℚ) := by
      exact_mod_cast congrArg (fun z : Int => (z : ℚ)) (Int.toNat_of_nonneg hn)
    rw [hcast]
    rw [durAdd_int a n unit
      ⟨by omega, by omega⟩
      ⟨by omega, by nlinarith⟩
      ⟨by omega, by omega⟩]

theorem addField_ok_none (a : Int) (unit : Int) :
    addField (.ok a) none unit = .ok a := rfl

theorem addSecField_ok_none (a : Int) :
    addSecField (.ok a) none = .ok a := rfl

/-- The extraction loop on the captures the formatter's full-form output
produces. -/
theorem parseFull_fullForm (y dd h m : Int)
    (hy : 0 ≤ y) (hdd : 0 ≤ dd) (hh : 0 ≤ h) (hm : 0 ≤ m)
    (hsum : y * nsYear + dd * nsDay + h * nsHour + m * nsMinute <
      9223372036854775808) :
    parseFull ⟨capOf y, none, capOf dd, capOf h, capOf m, none⟩ =
      .ok (y * nsYear + dd * nsDay + h * nsHour + m * nsMinute) := by
  have hY : (0:Int) < nsYear := by norm_num [nsYear]
  have hD : (0:Int) < nsDay := by norm_num [nsDay]
  have hH : (0:Int) < nsHour := by norm_num [nsHour]
  have hM : (0:Int) < nsMinute := by norm_num [nsMinute]
  have hyY : 0 ≤ y * nsYear := mul_nonneg hy (le_of_lt hY)
  have hdD : 0 ≤ dd * nsDay := mul_nonneg hdd (le_of_lt hD)
  have hhH : 0 ≤ h * nsHour := mul_nonneg hh (le_of_lt hH)
  have hmM : 0 ≤ m * nsMinute := mul_nonneg hm (le_of_lt hM)
  unfold parseFull
  dsimp only
  rw [show ((0:Int) = 0) from rfl] at *
  rw [addField_capOf 0 y nsYear le_rfl hy hY (by omega)]
  rw [addField_ok_none]
  rw [addField_capOf (0 + y * nsYear) dd nsDay (by omega) hdd hD (by omega)]
  rw [addField_capOf (0 + y * nsYear + dd * nsDay) h nsHour (by omega) hh hH
    (by omega)]
  rw [addField_capOf (0 + y * nsYear + dd * nsDay + h * nsHour) m nsMinute
    (by omega) hm hM (by omega)]
  rw [addSecField_ok_none]
  ring_nf

/-- Parsing the formatter's full-form output recovers the accumulated
magnitude. -/
theorem parse_fullFormL (y dd h m : Int)
    (hy : 0 ≤ y) (hdd : 0 ≤ dd) (hh : 0 ≤ h) (hm : 0 ≤ m)
    (hsum : y * nsYear + dd * nsDay + h * nsHour + m * nsMinute <
      9223372036854775808) :
    parseStringL (fullFormL y dd h m) =
      .ok ⟨y * nsYear + dd * nsDay + h * nsHour + m * nsMinute⟩ := by
  unfold parseStringL
  rw [weekScanL_none_of_no_W _ (no_W_fullForm y dd h m)]
  have hscan : fullScanL (fullFormL y dd h m) =
      some (fullAt (numPart y 'Y' ++ numPart dd 'D' ++
        (if h ≠ 0 ∨ m ≠ 0 then 'T' :: (numPart h 'H' ++ numPart m 'M') else []))) := by
    unfold fullFormL fullScanL
    rw [if_pos rfl]
  rw [hscan]
  dsimp only
  rw [fullAt_fullForm, parseFull_fullForm y dd h m hy hdd hh hm hsum]
  rfl

/-! ## The formatter's output shape on whole-minute magnitudes -/

/-- One designator chunk of the template: emitted iff the (integer
valued) accessor float is non-zero. -/
theorem chunk_eq (k : Int) (hk : 0 ≤ k) (c : Char) :
    (if ((k : ℚ)) ≠ 0 then fmtQ ((k : ℚ)) ++ [c] else []) = numPart k c := by
  by_cases hk0 : k = 0
  · subst hk0
    simp [numPart]
  · rw [if_pos (by exact_mod_cast hk0), fmtQ_intCast_nonneg k hk]
    rw [numPart, if_neg hk0]

/-- The accessors in euclidean form, for non-negative magnitudes. -/
theorem YearsI_eq (v : Int) (h : 0 ≤ v) :
    Duration.YearsI ⟨v⟩ = v / 31536000000000000 := by
  unfold Duration.YearsI
  rw [tdiv_eq_ediv_nn v nsYear h (by norm_num [nsYear])]
  norm_num [nsYear]

theorem DaysI_eq (v : Int) (h : 0 ≤ v) :
    Duration.DaysI ⟨v⟩ = (v / 86400000000000) % 365 := by
  unfold Duration.DaysI
  rw [tdiv_eq_ediv_nn v nsDay h (by norm_num [nsDay])]
  rw [tmod_eq_emod_nn _ 365 (Int.ediv_nonneg h (by norm_num [nsDay])) (by norm_num)]
  norm_num [nsDay]

theorem HoursI_eq (v : Int) (h : 0 ≤ v) :
    Duration.HoursI ⟨v⟩ = (v / 3600000000000) % 24 := by
  unfold Duration.HoursI
  rw [tdiv_eq_ediv_nn v nsHour h (by norm_num [nsHour])]
  rw [tmod_eq_emod_nn _ 24 (Int.ediv_nonneg h (by norm_num [nsHour])) (by norm_num)]
  norm_num [nsHour]

theorem MinutesI_eq (v : Int) (h : 0 ≤ v) :
    Duration.MinutesI ⟨v⟩ = (v / 60000000000) % 60 := by
  unfold Duration.MinutesI
  rw [tdiv_eq_ediv_nn v nsMinute h (by norm_num [nsMinute])]
  rw [tmod_eq_emod_nn _ 60 (Int.ediv_nonneg h (by norm_num [nsMinute])) (by norm_num)]
  norm_num [nsMinute]

/-- The magnitude decomposes exactly into the accessor values (the
design intent the spec records for the accessors), for non-negative
whole-minute magnitudes. -/
theorem accessor_decomposition (v : Int) (h0 : 0 ≤ v)
    (hmod : v % 60000000000 = 0) :
    Duration.YearsI ⟨v⟩ * nsYear + Duration.DaysI ⟨v⟩ * nsDay +
      Duration.HoursI ⟨v⟩ * nsHour + Duration.MinutesI ⟨v⟩ * nsMinute = v := by
  rw [YearsI_eq v h0, DaysI_eq v h0, HoursI_eq v h0, MinutesI_eq v h0]
  show _ * nsYear + _ * nsDay + _ * nsHour + _ * nsMinute = v
  have hY : nsYear = 31536000000000000 := rfl
  have hD : nsDay = 86400000000000 := rfl
  have hH : nsHour = 3600000000000 := rfl
  have hM : nsMinute = 60000000000 := rfl
  rw [hY, hD, hH, hM]
  omega

theorem accessorI_nonneg (v : Int) (h0 : 0 ≤ v) :
    0 ≤ Duration.YearsI ⟨v⟩ ∧ 0 ≤ Duration.DaysI ⟨v⟩ ∧
      0 ≤ Duration.HoursI ⟨v⟩ ∧ 0 ≤ Duration.MinutesI ⟨v⟩ := by
  rw [YearsI_eq v h0, DaysI_eq v h0, HoursI_eq v h0, MinutesI_eq v h0]
  refine ⟨Int.ediv_nonneg h0 (by norm_num), ?_, ?_, ?_⟩ <;>
    exact Int.emod_nonneg _ (by norm_num)

/-- The template's output in the general branch, for a whole-minute
magnitude. -/
theorem durStringL_full_shape (v : Int) (h0 : 0 ≤ v)
    (hmod : v % 60000000000 = 0) (hnz : v ≠ 0)
    (hw : ¬(Duration.Weeks ⟨v⟩ ≠ 0 ∧ Duration.IsWeeksOnly ⟨v⟩ = true)) :
    durStringL ⟨v⟩ = fullFormL (Duration.YearsI ⟨v⟩) (Duration.DaysI ⟨v⟩)
      (Duration.HoursI ⟨v⟩) (Duration.MinutesI ⟨v⟩) := by
  obtain ⟨hYnn, hDnn, hHnn, hMnn⟩ := accessorI_nonneg v h0
  have hsec0 : Duration.Seconds ⟨v⟩ = 0 := Seconds_eq_zero_of_whole_minutes v h0 hmod
  unfold durStringL fullFormL
  have hz : ¬(Duration.IsZero ⟨v⟩ = true) := by
    simp [Duration.IsZero, hnz]
  rw [if_neg hz, if_neg hw]
  congr 1
  have hY := chunk_eq _ hYnn 'Y'
  have hD := chunk_eq _ hDnn 'D'
  have hH := chunk_eq _ hHnn 'H'
  have hM := chunk_eq _ hMnn 'M'
  rw [show Duration.Years ⟨v⟩ = ((Duration.YearsI ⟨v⟩ : Int) : ℚ) from rfl,
    show Duration.Days ⟨v⟩ = ((Duration.DaysI ⟨v⟩ : Int) : ℚ) from rfl,
    show Duration.Hours ⟨v⟩ = ((Duration.HoursI ⟨v⟩ : Int) : ℚ) from rfl,
    show Duration.Minutes ⟨v⟩ = ((Duration.MinutesI ⟨v⟩ : Int) : ℚ) from rfl]
  rw [hY, hD, hH, hM]
  congr 1
  -- the time section
  have hiff : (Duration.HasTimePart ⟨v⟩ = true) ↔
      (Duration.HoursI ⟨v⟩ ≠ 0 ∨ Duration.MinutesI ⟨v⟩ ≠ 0) := by
    unfold Duration.HasTimePart
    rw [hsec0]
    simp [Duration.Hours, Duration.Minutes, Int.cast_eq_zero]
  rw [if_congr hiff rfl rfl]
  by_cases htime : Duration.HoursI ⟨v⟩ ≠ 0 ∨ Duration.MinutesI ⟨v⟩ ≠ 0
  · rw [if_pos htime, if_pos htime]
    rw [hsec0]
    simp

  · rw [if_neg htime, if_neg htime]

/-! ## The round trip, weeks branch and main statement -/

/-- When the template takes its weeks branch (for a non-negative
magnitude), the magnitude is an exact non-negative number of weeks and
the output is `P<w>W`. -/
theorem week_branch_facts (v : Int) (h0 : 0 ≤ v) (hnz : v ≠ 0)
    (hw : Duration.Weeks ⟨v⟩ ≠ 0 ∧ Duration.IsWeeksOnly ⟨v⟩ = true) :
    ∃ w : Int, 0 ≤ w ∧ w ≤ 52 ∧ v = w * nsWeek ∧
      durStringL ⟨v⟩ = 'P' :: (natDigits w.toNat ++ ['W']) := by
  have hDnn : 0 ≤ Duration.DaysI ⟨v⟩ := (accessorI_nonneg v h0).2.1
  have hDlt : Duration.DaysI ⟨v⟩ < 365 := by
    rw [DaysI_eq v h0]
    exact Int.emod_lt_of_pos _ (by norm_num)
  have hne : ¬(Int.tmod (Duration.DaysI ⟨v⟩) 7 > 0) := by
    intro hgt
    apply hw.1
    unfold Duration.Weeks
    rw [if_pos hgt]
  have htm := tmod_eq_emod_nn (Duration.DaysI ⟨v⟩) 7 hDnn (by norm_num)
  have hmod7 : Duration.DaysI ⟨v⟩ % 7 = 0 := by
    have hnn : 0 ≤ Duration.DaysI ⟨v⟩ % 7 := Int.emod_nonneg _ (by norm_num)
    omega
  have hDw : Duration.DaysI ⟨v⟩ = 7 * (Duration.DaysI ⟨v⟩ / 7) := by omega
  set w : Int := Duration.DaysI ⟨v⟩ / 7 with hwdef
  have hWeeksEq : Duration.Weeks ⟨v⟩ = ((w : Int) : ℚ) := by
    unfold Duration.Weeks
    rw [if_neg hne, hDw]
    push_cast
    rw [mul_comm, mul_div_assoc]
    norm_num
  have hwnn : 0 ≤ w := Int.ediv_nonneg hDnn (by norm_num)
  have hwlt : w ≤ 52 := by omega
  have hveq : v = w * nsWeek := by
    have hwo := hw.2
    unfold Duration.IsWeeksOnly at hwo
    rw [hWeeksEq, ratTrunc_intCast] at hwo
    have hb : i64 (w * nsWeek) = v := by simpa using hwo
    have hWlit : nsWeek = 604800000000000 := rfl
    rw [i64_of_range _ (by rw [hWlit]; omega) (by rw [hWlit]; omega)] at hb
    omega
  have hfmt : durStringL ⟨v⟩ = 'P' :: (natDigits w.toNat ++ ['W']) := by
    unfold durStringL
    have hz : ¬(Duration.IsZero ⟨v⟩ = true) := by
      simp [Duration.IsZero, hnz]
    rw [if_neg hz, if_pos hw, hWeeksEq, fmtQ_intCast_nonneg w hwnn]
  exact ⟨w, hwnn, hwlt, hveq, hfmt⟩

theorem parse_week_branch (v : Int) (h0 : 0 ≤ v) (hnz : v ≠ 0)
    (hw : Duration.Weeks ⟨v⟩ ≠ 0 ∧ Duration.IsWeeksOnly ⟨v⟩ = true) :
    parseStringL (durStringL ⟨v⟩) = .ok ⟨v⟩ := by
  obtain ⟨w, hwnn, hwlt, hveq, hfmt⟩ := week_branch_facts v h0 hnz hw
  rw [hfmt]
  unfold parseStringL
  have hws : weekScanL ('P' :: (natDigits w.toNat ++ ['W'])) =
      some (natDigits w.toNat) := by
    have := weekScanL_hit (natDigits w.toNat) [] (natDigits_ne_nil _)
      (natDigits_isDigit _)
    simpa using this
  rw [hws]
  dsimp only
  rw [parseGoFloat_natDigits w.toNat
    (by have hT := int64_lt_parseFloatLimit; omega)]
  dsimp only
  have hcast : ((w.toNat : ℕ) : ℚ) = ((w : Int) : ℚ) := by
    exact_mod_cast congrArg (fun z : Int => (z : ℚ)) (Int.toNat_of_nonneg hwnn)
  have hWlit : nsWeek = 604800000000000 := rfl
  rw [hcast, durAdd_int 0 w nsWeek
    ⟨by rw [hWlit]; omega, by rw [hWlit]; omega⟩ ⟨by omega, by omega⟩
    ⟨by rw [hWlit]; omega, by rw [hWlit]; omega⟩]
  rw [zero_add, ← hveq]

/-- THE round trip: parsing the formatter's output recovers the exact
magnitude, for every non-negative whole-minute int64 magnitude. -/
theorem parse_durString (v : Int) (h0 : 0 ≤ v)
    (hlt : v < 9223372036854775808) (hmod : v % 60000000000 = 0) :
    parseStringL (durStringL ⟨v⟩) = .ok ⟨v⟩ := by
  by_cases hz : v = 0
  · subst hz
    decide
  · by_cases hwk : Duration.Weeks ⟨v⟩ ≠ 0 ∧ Duration.IsWeeksOnly ⟨v⟩ = true
    · exact parse_week_branch v h0 hz hwk
    · rw [durStringL_full_shape v h0 hmod hz hwk]
      obtain ⟨hYnn, hDnn, hHnn, hMnn⟩ := accessorI_nonneg v h0
      have hdec := accessor_decomposition v h0 hmod
      rw [parse_fullFormL _ _ _ _ hYnn hDnn hHnn hMnn (by omega)]
      rw [hdec]

/-! ## JSON round trip -/

theorem digit_toNat_bounds (c : Char) (hd : c.isDigit = true) :
    48 ≤ c.toNat ∧ c.toNat ≤ 57 := by
  simp only [Char.isDigit, Bool.and_eq_true, decide_eq_true_eq] at hd
  exact ⟨hd.1, hd.2⟩

theorem digit_ne (c : Char) (hd : c.isDigit = true) (x : Char)
    (hx : x.isDigit = false) : c ≠ x := by
  intro h
  rw [h, hx] at hd
  cases hd

theorem jsonEscapeChar_digit (c : Char) (hd : c.isDigit = true) :
    jsonEscapeChar c = [c] := by
  unfold jsonEscapeChar
  rw [if_neg (digit_ne c hd '"' (by decide)), if_neg (digit_ne c hd '\\' (by decide)),
    if_neg (digit_ne c hd '<' (by decide)), if_neg (digit_ne c hd '>' (by decide)),
    if_neg (digit_ne c hd '&' (by decide)), if_neg (digit_ne c hd '\n' (by decide)),
    if_neg (digit_ne c hd '\r' (by decide)), if_neg (digit_ne c hd '\t' (by decide)),
    if_neg (by have := digit_toNat_bounds c hd; omega)]

theorem escape_id_of_all (l : List Char) (h : ∀ c ∈ l, jsonEscapeChar c = [c]) :
    l.foldr (fun c acc => jsonEscapeChar c ++ acc) [] = l := by
  induction l with
  | nil => rfl
  | cons c t ih =>
    simp only [List.foldr_cons]
    rw [h c (List.mem_cons_self c t), ih (fun x hx => h x (List.mem_cons_of_mem c hx))]
    rfl

theorem scanJSONStr_plain (l : List Char) (rest : List Char)
    (h : ∀ c ∈ l, c ≠ '"' ∧ c ≠ '\\') :
    scanJSONStr false (l ++ '"' :: rest) = some (l, rest) := by
  induction l with
  | nil =>
    show scanJSONStr false ('"' :: rest) = some ([], rest)
    unfold scanJSONStr
    rw [if_pos rfl]
  | cons c t ih =>
    have hc := h c (List.mem_cons_self c t)
    show scanJSONStr false (c :: (t ++ '"' :: rest)) = some (c :: t, rest)
    unfold scanJSONStr
    rw [if_neg hc.1, if_neg hc.2, ih (fun x hx => h x (List.mem_cons_of_mem c hx))]
    rfl

theorem jsonDecode_encode (l : List Char)
    (h : ∀ c ∈ l, jsonEscapeChar c = [c] ∧ c ≠ '"' ∧ c ≠ '\\') :
    jsonDecodeStringL (jsonEncodeString l ++ ['\n']) = some l := by
  unfold jsonEncodeString jsonDecodeStringL
  rw [escape_id_of_all l (fun c hc => (h c hc).1)]
  have hshape : ('"' :: l ++ ['"']) ++ ['\n'] = '"' :: (l ++ '"' :: ['\n']) := by
    simp
  rw [hshape]
  rw [dropWhile_cons_neg '"' _ (by decide)]
  show (scanJSONStr false (l ++ '"' :: ['\n'])).map (fun p => p.1) = some l
  rw [scanJSONStr_plain l ['\n'] (fun c hc => (h c hc).2)]
  rfl

theorem fullFormL_chars (y dd h m : Int) :
    ∀ x ∈ fullFormL y dd h m, x.isDigit = true ∨
      x ∈ (['P', 'Y', 'D', 'T', 'H', 'M'] : List Char) := by
  intro x hx
  unfold fullFormL at hx
  rcases List.mem_cons.mp hx with hP | hx
  · right; rw [hP]; decide
  · rcases List.mem_append.mp hx with hx | hx
    · rcases List.mem_append.mp hx with hx | hx
      · rcases numPart_chars y 'Y' x hx with hd | he
        · exact Or.inl hd
        · right; rw [he]; decide
      · rcases numPart_chars dd 'D' x hx with hd | he
        · exact Or.inl hd
        · right; rw [he]; decide
    · split at hx
      · rcases List.mem_cons.mp hx with hT | hx
        · right; rw [hT]; decide
        · rcases List.mem_append.mp hx with hx | hx
          · rcases numPart_chars h 'H' x hx with hd | he
            · exact Or.inl hd
            · right; rw [he]; decide
          · rcases numPart_chars m 'M' x hx with hd | he
            · exact Or.inl hd
            · right; rw [he]; decide
      · cases hx

/-- The formatter's whole-minute output uses only digits and the
designator letters. -/
theorem durStringL_chars (v : Int) (h0 : 0 ≤ v) (hmod : v % 60000000000 = 0) :
    ∀ c ∈ durStringL ⟨v⟩, c.isDigit = true ∨
      c ∈ (['P', 'Y', 'D', 'W', 'T', 'H', 'M'] : List Char) := by
  by_cases hz : v = 0
  · subst hz
    intro c hc
    have hPD : durStringL ⟨0⟩ = ['P', '0', 'D'] := by decide
    rw [hPD] at hc
    rcases List.mem_cons.mp hc with h1 | hc
    · right; rw [h1]; decide
    rcases List.mem_cons.mp hc with h2 | hc
    · left; rw [h2]; decide
    rcases List.mem_cons.mp hc with h3 | hc
    · right; rw [h3]; decide
    · cases hc
  · by_cases hwk : Duration.Weeks ⟨v⟩ ≠ 0 ∧ Duration.IsWeeksOnly ⟨v⟩ = true
    · obtain ⟨w, _, _, _, hfmt⟩ := week_branch_facts v h0 hz hwk
      rw [hfmt]
      intro c hc
      rcases List.mem_cons.mp hc with hP | hc
      · right; rw [hP]; decide
      · rcases List.mem_append.mp hc with hc | hc
        · exact Or.inl (natDigits_isDigit _ c hc)
        · right
          rw [List.mem_singleton.mp hc]
          decide
    · rw [durStringL_full_shape v h0 hmod hz hwk]
      intro c hc
      rcases fullFormL_chars _ _ _ _ c hc with hd | he
      · exact Or.inl hd
      · right
        fin_cases he <;> decide

/-- The whole JSON round trip on a whole-minute magnitude: marshal, then
unmarshal into any receiver. -/
theorem unmarshal_marshal (v : Int) (h0 : 0 ≤ v)
    (hlt : v < 9223372036854775808) (hmod : v % 60000000000 = 0)
    (d₀ : Duration) :
    unmarshalJSON d₀ (marshalJSON ⟨v⟩) = (none, ⟨v⟩) := by
  have hgood : ∀ c ∈ durStringL ⟨v⟩,
      jsonEscapeChar c = [c] ∧ c ≠ '"' ∧ c ≠ '\\' := by
    intro c hc
    rcases durStringL_chars v h0 hmod c hc with hd | he
    · exact ⟨jsonEscapeChar_digit c hd, digit_ne c hd '"' (by decide),
        digit_ne c hd '\\' (by decide)⟩
    · fin_cases he <;> exact ⟨by decide, by decide, by decide⟩
  unfold unmarshalJSON marshalJSON marshalJSONL
  show (match jsonDecodeStringL (jsonEncodeString (durStringL ⟨v⟩) ++ ['\n']) with
    | none => (some UErr.decodeErr, d₀)
    | some s =>
      match parseStringL s with
      | .error e => (some (UErr.parseErr e), d₀)
      | .ok t => (none, t)) = (none, ⟨v⟩)
  rw [jsonDecode_encode _ hgood]
  dsimp only
  rw [parse_durString v h0 hlt hmod]

/-! ## Range and error-kind facts about the parser -/

theorem addField_range (acc : Except GoErr Int) (cap : Option (List Char))
    (unit : Int)
    (hacc : ∀ a, acc = .ok a → -9223372036854775808 ≤ a ∧ a < 9223372036854775808) :
    ∀ a, addField acc cap unit = .ok a →
      -9223372036854775808 ≤ a ∧ a < 9223372036854775808 := by
  intro a h
  cases acc with
  | error e => cases cap <;> (simp only [addField] at h; exact Except.noConfusion h)
  | ok a0 =>
    cases cap with
    | none =>
      simp only [addField, Except.ok.injEq] at h
      subst h
      exact hacc a0 rfl
    | some run =>
      simp only [addField] at h
      cases hpf : parseGoFloat run with
      | none => rw [hpf] at h; cases h
      | some q =>
        rw [hpf] at h
        simp only [Except.ok.injEq] at h
        subst h
        exact i64_range _

theorem addSecField_range (acc : Except GoErr Int) (cap : Option (List Char))
    (hacc : ∀ a, acc = .ok a → -9223372036854775808 ≤ a ∧ a < 9223372036854775808) :
    ∀ a, addSecField acc cap = .ok a →
      -9223372036854775808 ≤ a ∧ a < 9223372036854775808 := by
  intro a h
  cases acc with
  | error e => cases cap <;> (simp only [addSecField] at h; exact Except.noConfusion h)
  | ok a0 =>
    cases cap with
    | none =>
      simp only [addSecField, Except.ok.injEq] at h
      subst h
      exact hacc a0 rfl
    | some run =>
      simp only [addSecField] at h
      cases hpf : parseGoFloat run with
      | none => rw [hpf] at h; cases h
      | some q =>
        rw [hpf] at h
        simp only [Except.ok.injEq] at h
        subst h
        exact i64_range _

/-- Every magnitude `ParseString` can produce is a valid int64 (each
accumulation step is wrapped). -/
theorem parse_result_range (l : List Char) (d : Duration)
    (h : parseStringL l = .ok d) :
    -9223372036854775808 ≤ d.v ∧ d.v < 9223372036854775808 := by
  unfold parseStringL at h
  cases hws : weekScanL l with
  | some run =>
    rw [hws] at h
    dsimp only at h
    cases hpf : parseGoFloat run with
    | none => rw [hpf] at h; cases h
    | some q =>
      rw [hpf] at h
      cases h
      exact i64_range _
  | none =>
    rw [hws] at h
    dsimp only at h
    cases hfs : fullScanL l with
    | none => rw [hfs] at h; cases h
    | some caps =>
      rw [hfs] at h
      dsimp only at h
      cases hpf : parseFull caps with
      | error e => rw [hpf] at h; cases h
      | ok a =>
        rw [hpf] at h
        cases h
        have hbase : ∀ b, (Except.ok 0 : Except GoErr Int) = .ok b →
            -9223372036854775808 ≤ b ∧ b < 9223372036854775808 := by
          intro b hb
          cases hb
          norm_num
        exact addSecField_range _ _
          (addField_range _ _ _
            (addField_range _ _ _
              (addField_range _ _ _
                (addField_range _ _ _
                  (addField_range _ _ _ hbase)))))
          a hpf

theorem addField_ne_badFormat (acc : Except GoErr Int) (cap : Option (List Char))
    (unit : Int) (hacc : acc ≠ .error .badFormat) :
    addField acc cap unit ≠ .error GoErr.badFormat := by
  intro h
  cases acc with
  | error e =>
    cases e with
    | badFormat => exact hacc rfl
    | numErr =>
      cases cap <;> (simp only [addField] at h; injection h with h2; cases h2)
  | ok a0 =>
    cases cap with
    | none =>
      simp only [addField] at h
      exact Except.noConfusion h
    | some run =>
      simp only [addField] at h
      cases hpf : parseGoFloat run with
      | none => rw [hpf] at h; cases h
      | some q => rw [hpf] at h; cases h

theorem addSecField_ne_badFormat (acc : Except GoErr Int)
    (cap : Option (List Char)) (hacc : acc ≠ .error .badFormat) :
    addSecField acc cap ≠ .error GoErr.badFormat := by
  intro h
  cases acc with
  | error e =>
    cases e with
    | badFormat => exact hacc rfl
    | numErr =>
      cases cap <;> (simp only [addSecField] at h; injection h with h2; cases h2)
  | ok a0 =>
    cases cap with
    | none =>
      simp only [addSecField] at h
      exact Except.noConfusion h
    | some run =>
      simp only [addSecField] at h
      cases hpf : parseGoFloat run with
      | none => rw [hpf] at h; cases h
      | some q => rw [hpf] at h; cases h

/-- Go `ErrBadFormat` is returned exactly when neither regexp matches: a
match with zero captured designators still succeeds (with magnitude 0),
and the only other failures are `strconv` errors. -/
theorem parse_badFormat_iff (l : List Char) :
    parseStringL l = .error GoErr.badFormat ↔
      weekScanL l = none ∧ fullScanL l = none := by
  constructor
  · intro h
    unfold parseStringL at h
    cases hws : weekScanL l with
    | some run =>
      rw [hws] at h
      dsimp only at h
      cases hpf : parseGoFloat run with
      | none => rw [hpf] at h; cases h
      | some q => rw [hpf] at h; cases h
    | none =>
      rw [hws] at h
      dsimp only at h
      cases hfs : fullScanL l with
      | none => exact ⟨rfl, rfl⟩
      | some caps =>
        rw [hfs] at h
        dsimp only at h
        have hne : parseFull caps ≠ .error GoErr.badFormat := by
          unfold parseFull
          apply addSecField_ne_badFormat
          apply addField_ne_badFormat
          apply addField_ne_badFormat
          apply addField_ne_badFormat
          apply addField_ne_badFormat
          apply addField_ne_badFormat
          intro hc
          cases hc
        cases hpf : parseFull caps with
        | error e =>
          rw [hpf] at h
          cases e with
          | badFormat => exact absurd hpf hne
          | numErr => cases h
        | ok a => rw [hpf] at h; cases h
  · intro ⟨hws, hfs⟩
    unfold parseStringL
    rw [hws, hfs]

/-! ## Accessor signs -/

theorem accessors_nonneg_of_nonneg (v : Int) (h0 : 0 ≤ v) :
    0 ≤ Duration.Years ⟨v⟩ ∧ 0 ≤ Duration.Weeks ⟨v⟩ ∧ 0 ≤ Duration.Days ⟨v⟩ ∧
      0 ≤ Duration.Hours ⟨v⟩ ∧ 0 ≤ Duration.Minutes ⟨v⟩ ∧
      0 ≤ Duration.Seconds ⟨v⟩ := by
  obtain ⟨hY, hD, hH, hM⟩ := accessorI_nonneg v h0
  refine ⟨?_, ?_, ?_, ?_, ?_, ?_⟩
  · unfold Duration.Years
    exact_mod_cast hY
  · unfold Duration.Weeks
    split
    · norm_num
    · exact div_nonneg (by exact_mod_cast hD) (by norm_num)
  · unfold Duration.Days
    exact_mod_cast hD
  · unfold Duration.Hours
    exact_mod_cast hH
  · unfold Duration.Minutes
    exact_mod_cast hM
  · rw [Seconds_eq_emod v h0]
    exact div_nonneg (by exact_mod_cast Int.emod_nonneg v (by norm_num)) (by norm_num)

/-! # The claims -/

/-- C1 (counterexample): the formatter/parser round trip fails on the
Duration of magnitude 1 ns, which the Formatter renders as `PT1e-09S`
(scientific notation); the seconds group `[\d.]+S` cannot match the `e`,
so the reparse yields the zero duration, which prints as `P0D`. -/
theorem c1_counterexample :
    durString ⟨1⟩ = "PT1e-09S" ∧
      (parseString (durString ⟨1⟩)).map durString = Except.ok "P0D" ∧
      ("P0D" : String) ≠ "PT1e-09S" := by
  decide

/-- C1 (amended): for every Duration whose magnitude is a non-negative
whole number of minutes (within int64), ParseString succeeds on the
formatted string, recovers the exact magnitude, and re-prints the same
string. -/
theorem c1_round_trip_amended (d : Duration) (h0 : 0 ≤ d.v)
    (hlt : d.v < 9223372036854775808) (hmod : d.v % 60000000000 = 0) :
    parseString (durString d) = Except.ok d ∧
      (parseString (durString d)).map durString = Except.ok (durString d) := by
  obtain ⟨v⟩ := d
  have h := parse_durString v h0 hlt hmod
  refine ⟨h, ?_⟩
  show (parseStringL (durStringL ⟨v⟩)).map durString = _
  rw [h]
  rfl

/-- C1 (witness): the round trip at the concrete magnitude 3720·10⁹ ns
(one hour and two minutes, printed `PT1H2M`). -/
theorem c1_witness :
    0 ≤ (3720000000000 : Int) ∧ (3720000000000 : Int) % 60000000000 = 0 ∧
      parseString (durString ⟨3720000000000⟩) = Except.ok ⟨3720000000000⟩ :=
  ⟨by decide, by decide,
    (c1_round_trip_amended ⟨3720000000000⟩ (by decide) (by decide) (by decide)).1⟩

/-- C2 (counterexample): an input that matches the full pattern with
zero captured designators — the bare string `P` — does NOT fail with
BadFormat; it succeeds and yields the zero duration. -/
theorem c2_counterexample :
    parseString "P" = Except.ok ⟨0⟩ ∧ (fullScanL "P".data).isSome = true := by
  decide

/-- C2 (amended): ParseString fails with the BadFormat error exactly
when the input matches neither the week pattern nor the full pattern
(a match with zero captured designators succeeds with magnitude 0);
in particular `garbage` and the empty string fail with BadFormat. -/
theorem c2_badFormat_iff_amended :
    (∀ s : String, parseString s = Except.error GoErr.badFormat ↔
      weekScanL s.data = none ∧ fullScanL s.data = none) ∧
      parseString "garbage" = Except.error GoErr.badFormat ∧
      parseString "" = Except.error GoErr.badFormat :=
  ⟨fun s => parse_badFormat_iff s.data, by decide, by decide⟩

/-- C3: the Formatter prefers weeks/days over months and collapses
exact weeks: `P7D ↦ P1W`, `P1M5D ↦ P5W`, `P1M ↦ P30D`,
`P1Y1M5D ↦ P1Y35D`. -/
theorem c3_formatter_preferences :
    (parseString "P7D").map durString = Except.ok "P1W" ∧
      (parseString "P1M5D").map durString = Except.ok "P5W" ∧
      (parseString "P1M").map durString = Except.ok "P30D" ∧
      (parseString "P1Y1M5D").map durString = Except.ok "P1Y35D" := by
  decide

/-- C4: zero identity — `P0D` parses to the zero magnitude, `IsZero`
holds of it, and the zero duration formats as exactly `P0D`. -/
theorem c4_zero_identity :
    parseString "P0D" = Except.ok ⟨0⟩ ∧ Duration.IsZero ⟨0⟩ = true ∧
      durString ⟨0⟩ = "P0D" := by
  decide

/-- C5 (counterexample): `P1W2D` DOES take the week path — the week
pattern is unanchored, so it matches the `P1W` substring; the result is
exactly one week (604800·10⁹ ns) and the `2D` is silently ignored
(the blended reading, one week plus two days = 777600·10⁹ ns, is not
produced). -/
theorem c5_counterexample :
    weekScanL "P1W2D".data = some ['1'] ∧
      parseString "P1W2D" = Except.ok ⟨604800000000000⟩ ∧
      parseString "P1W2D" ≠ Except.ok ⟨777600000000000⟩ := by
  decide

/-- C5 (amended): ParseString attempts the week pattern first and, when
it matches anywhere in the input, uses the captured week count
exclusively; the week pattern is an unanchored substring match, so any
input containing `P<digits>W` (e.g. `P1W2D`) takes the week path.  The
universal clause is stated for captured counts of at most 15 000 weeks
(about 287 years), the regime where every step the Go code performs is
exact and defined (`ParseFloat` is exact below 2^53 with no `ErrRange`,
the `time.Duration` conversion is in int64 range, and `count * Week`
cannot overflow int64); the result is exactly `count * Week`
nanoseconds. -/
theorem c5_week_path_amended :
    (∀ (s : String) (run : List Char), weekScanL s.data = some run →
      digitsVal run ≤ 15000 →
      parseString s = Except.ok ⟨((digitsVal run : ℕ) : Int) * nsWeek⟩) ∧
      parseString "P1W2D" = Except.ok ⟨604800000000000⟩ := by
  constructor
  · intro s run h hb
    unfold parseString parseStringL
    rw [h]
    dsimp only
    obtain ⟨hne, hdig⟩ := weekScanL_digits s.data run h
    rw [parseGoFloat_all_digits run hne hdig
      (by have hT := int64_lt_parseFloatLimit; omega)]
    dsimp only
    have hcast : (((digitsVal run : ℕ) : ℚ)) = ((((digitsVal run : ℕ) : Int)) : ℚ) := by
      push_cast
      ring
    have hbi : ((digitsVal run : ℕ) : Int) ≤ 15000 := by exact_mod_cast hb
    have hbn : (0 : Int) ≤ ((digitsVal run : ℕ) : Int) := by positivity
    have hWlit : nsWeek = 604800000000000 := rfl
    rw [hcast, durAdd_int 0 ((digitsVal run : ℕ) : Int) nsWeek
      ⟨by rw [hWlit]; omega, by rw [hWlit]; omega⟩ ⟨by omega, by omega⟩
      ⟨by rw [hWlit]; omega, by rw [hWlit]; omega⟩]
    rw [zero_add]
  · decide

/-- C5 (witness): the week path at the concrete input `P3W`. -/
theorem c5_witness :
    weekScanL "P3W".data = some ['3'] ∧ digitsVal ['3'] ≤ 15000 ∧
      parseString "P3W" = Except.ok ⟨1814400000000000⟩ :=
  ⟨by decide, by decide,
    (c5_week_path_amended.1 "P3W" ['3'] (by decide) (by decide)).trans (by decide)⟩

/-- C6 (counterexample): `PT0.000000001S` parses to the 1 ns duration,
but marshaling it produces `"PT1e-09S"` whose reparse is the zero
duration — the JSON round trip does not preserve this magnitude. -/
theorem c6_counterexample :
    parseString "PT0.000000001S" = Except.ok ⟨1⟩ ∧
      (unmarshalJSON ⟨0⟩ (marshalJSON ⟨1⟩)).2 ≠ ⟨1⟩ := by
  decide

/-- C6 (amended): for every Duration obtained from a successful
ParseString whose magnitude is a non-negative whole number of minutes,
MarshalJSON followed by UnmarshalJSON (into any receiver) succeeds and
yields an equal magnitude. -/
theorem c6_json_round_trip_amended (s : String) (d d₀ : Duration)
    (hp : parseString s = Except.ok d) (h0 : 0 ≤ d.v)
    (hmod : d.v % 60000000000 = 0) :
    unmarshalJSON d₀ (marshalJSON d) = (none, d) := by
  obtain ⟨v⟩ := d
  have hr := parse_result_range s.data ⟨v⟩ hp
  exact unmarshal_marshal v h0 hr.2 hmod d₀

/-- C6 (witness): the JSON round trip on the duration parsed from
`PT2M`. -/
theorem c6_witness :
    parseString "PT2M" = Except.ok ⟨120000000000⟩ ∧
      unmarshalJSON ⟨7⟩ (marshalJSON ⟨120000000000⟩) =
        (none, ⟨120000000000⟩) :=
  ⟨by decide,
    c6_json_round_trip_amended "PT2M" ⟨120000000000⟩ ⟨7⟩ (by decide) (by decide)
      (by decide)⟩

/-- C7: UnmarshalJSON is atomic — whenever decoding or parsing fails it
reports the error and leaves the receiver's magnitude unchanged, and on
success the receiver holds exactly the magnitude parsed from the decoded
string. -/
theorem c7_unmarshal_atomic (d : Duration) (data : String) :
    (∀ e : UErr, (unmarshalJSON d data).1 = some e →
      (unmarshalJSON d data).2 = d) ∧
    ((unmarshalJSON d data).1 = none →
      ∃ s : List Char, jsonDecodeStringL data.data = some s ∧
        parseStringL s = Except.ok (unmarshalJSON d data).2) := by
  unfold unmarshalJSON
  cases hdec : jsonDecodeStringL data.data with
  | none =>
    exact ⟨fun e _ => rfl, fun hc => Option.noConfusion hc⟩
  | some s =>
    dsimp only
    cases hp : parseStringL s with
    | error e =>
      exact ⟨fun e' _ => rfl, fun hc => Option.noConfusion hc⟩
    | ok t =>
      exact ⟨fun e' hc => Option.noConfusion hc, fun _ => ⟨s, rfl, hp⟩⟩

/-- C7 (witness): decoding the JSON number `42` into a string fails, and
the receiver keeps its magnitude. -/
theorem c7_witness :
    (unmarshalJSON ⟨5⟩ "42").1 = some UErr.decodeErr ∧
      (unmarshalJSON ⟨5⟩ "42").2 = ⟨5⟩ :=
  ⟨by decide, (c7_unmarshal_atomic ⟨5⟩ "42").1 UErr.decodeErr (by decide)⟩

/-- C8: fractional seconds — `PT1.5S` parses to exactly 1 second plus
500 milliseconds (1.5·10⁹ ns), `Seconds()` of that magnitude is exactly
3/2, and the value round-trips through `String()` back to `PT1.5S`. -/
theorem c8_fractional_seconds :
    parseString "PT1.5S" = Except.ok ⟨1500000000⟩ ∧
      Duration.Seconds ⟨1500000000⟩ = 3 / 2 ∧
      (parseString "PT1.5S").map durString = Except.ok "PT1.5S" := by
  decide

/-- C9 (counterexample): on a negative magnitude (minus one day) the
`Days()` accessor is negative — the truncated division and
sign-of-dividend `math.Mod` both keep the sign. -/
theorem c9_counterexample : Duration.Days ⟨-86400000000000⟩ < 0 := by
  decide

/-- C9 (amended): for every Duration with a NON-NEGATIVE magnitude, the
accessors Years(), Weeks(), Days(), Hours() and Minutes() return
non-negative numbers computed purely from the stored magnitude (each
divides in int64 first, and the small quotients are exact in float64 at
every int64 magnitude); Seconds() is non-negative whenever the
magnitude is additionally below 2^53, the domain where its float64
chain agrees with the exact model up to the final sign-preserving
division (`float64(d)` exact, no carry in `Trunc(Minutes())`, exact
product and subtraction).  Beyond 2^53 the real `Seconds()` can return
tiny negative values (e.g. about -4e-09 at 31457339999999997 ns, where
`float64(d)` rounds down while `Minutes()` carries up), so the
non-negativity of Seconds() cannot be claimed there. -/
theorem c9_accessors_nonneg_amended (d : Duration) (h0 : 0 ≤ d.v) :
    (0 ≤ d.Years ∧ 0 ≤ d.Weeks ∧ 0 ≤ d.Days ∧ 0 ≤ d.Hours ∧
      0 ≤ d.Minutes) ∧ (d.v < 9007199254740992 → 0 ≤ d.Seconds) := by
  obtain ⟨v⟩ := d
  obtain ⟨h1, h2, h3, h4, h5, h6⟩ := accessors_nonneg_of_nonneg v h0
  exact ⟨⟨h1, h2, h3, h4, h5⟩, fun _ => h6⟩

/-- C9 (witness): the accessors at 1 day, 2 hours, 3 minutes and 4
seconds worth of nanoseconds (a magnitude below 2^53). -/
theorem c9_witness :
    0 ≤ (Duration.mk 93784000000000).v ∧
      (Duration.mk 93784000000000).v < 9007199254740992 ∧
      (0 ≤ (Duration.mk 93784000000000).Years ∧
        0 ≤ (Duration.mk 93784000000000).Weeks ∧
        0 ≤ (Duration.mk 93784000000000).Days ∧
        0 ≤ (Duration.mk 93784000000000).Hours ∧
        0 ≤ (Duration.mk 93784000000000).Minutes) ∧
      0 ≤ (Duration.mk 93784000000000).Seconds :=
  ⟨by decide, by decide,
    (c9_accessors_nonneg_amended ⟨93784000000000⟩ (by decide)).1,
    (c9_accessors_nonneg_amended ⟨93784000000000⟩ (by decide)).2 (by decide)⟩

/-- C10: substring matching at the public interface — the bare string
`P` (no designators) parses successfully to the zero duration, and
`xxP1Dyy` parses successfully to one day, the surrounding garbage being
silently ignored. -/
theorem c10_substring_matching :
    parseString "P" = Except.ok ⟨0⟩ ∧
      parseString "xxP1Dyy" = Except.ok ⟨86400000000000⟩ := by
  decide

end ISO8601
